import Mathlib

/-!
Shallow embedding of the employee ingestion pipeline
(`src/utils/validator.js`, `src/lib/transformer.js`, `src/lib/database.js`,
`src/models/employee.js`, `src/utils/memoryGraph.js`, memory monitor), with
theorems settling the specification claims about it.
-/

set_option maxHeartbeats 1000000

/-- Raw JavaScript value reaching `validateEmployee`: either a plain object
with the employee fields (each possibly `undefined`, modelled as `none`),
or a non-object / falsy value (`null`, `undefined`, number, string, bool). -/
structure EmployeeObj where
  first_name : Option String
  last_name : Option String
  email : Option String
  hire_date : Option String
  salary : Option String
deriving DecidableEq, Repr

/-- Input value for the validator, covering the non-object cases the
JavaScript guard `!employee || typeof employee !== 'object'` rejects. -/
inductive EmployeeInput where
  | jsNull
  | jsUndefined
  | jsNumber (n : Int)
  | jsString (s : String)
  | jsBool (b : Bool)
  | obj (e : EmployeeObj)
deriving DecidableEq, Repr

/-- Characters allowed by the character class of the email regex
`[^\s@]+` : anything that is neither whitespace nor `@`. -/
def isEmailChar (c : Char) : Bool :=
  !c.isWhitespace && c != '@'

/-- Matching of the regex `^[^\s@]+@[^\s@]+\.[^\s@]+$` from `isValidEmail`:
the character list is `A ++ [@] ++ B ++ [.] ++ C` with `A`, `B`, `C`
non-empty runs of `isEmailChar` characters; `i` is the index of the `@`
and `j` the index of the separating dot. -/
def emailRegexMatches (cs : List Char) : Bool :=
  (List.range cs.length).any fun i =>
    (List.range cs.length).any fun j =>
      decide (0 < i) && decide (i + 1 < j) && decide (j + 1 < cs.length) &&
      (cs.getD i ' ' == '@') && (cs.getD j ' ' == '.') &&
      (cs.take i).all isEmailChar &&
      ((cs.drop (i + 1)).take (j - i - 1)).all isEmailChar &&
      (cs.drop (j + 1)).all isEmailChar

/-- Embeds `isValidEmail` from `src/utils/validator.js`: a falsy (empty)
email is rejected, otherwise the regex above is tested. -/
def isValidEmail (email : String) : Bool :=
  if email = "" then false
  else emailRegexMatches email.toList

/-- Models the host runtime method `String.prototype.trim`: removes the
whitespace characters at both ends of the string. -/
def jsTrim (s : String) : String :=
  ⟨((s.toList.dropWhile Char.isWhitespace).reverse.dropWhile Char.isWhitespace).reverse⟩

/-- Embeds the JavaScript test `!field || field.trim() === ''` on an
optional string field. -/
def isMissingOrBlank : Option String → Bool
  | none => true
  | some s => s == "" || jsTrim s == ""

/-- Embeds the JavaScript test `!employee.email` on the email field. -/
def emailMissing : Option String → Bool
  | none => true
  | some s => s == ""

/-- Models the host runtime test `isNaN(Date.parse(s))` used for the
optional `hire_date` field, restricted to ISO `YYYY-MM-DD` date strings:
anything else is treated as failing to parse. -/
def jsDateParseFails (s : String) : Bool :=
  match s.splitOn "-" with
  | [y, m, d] =>
    match y.toNat?, m.toNat?, d.toNat? with
    | some _, some mv, some dv =>
      !(decide (y.length = 4) && decide (1 ≤ mv) && decide (mv ≤ 12) &&
        decide (1 ≤ dv) && decide (dv ≤ 31))
    | _, _, _ => true
  | _ => true

/-- Models whether the host runtime `parseFloat` finds a leading number
in the character list (after the optional sign has been removed). -/
def jsParseFloatHasNumber (cs : List Char) : Bool :=
  match cs with
  | [] => false
  | '.' :: rest =>
    match rest with
    | c :: _ => c.isDigit
    | [] => false
  | c :: _ => c.isDigit

/-- Models the host runtime test
`isNaN(parseFloat(s)) || parseFloat(s) < 0` used for the optional
`salary` field: invalid when no leading number can be parsed, or when a
parsed number is strictly negative (a minus sign followed by a leading
numeric run containing a nonzero digit). -/
def jsSalaryInvalid (s : String) : Bool :=
  let cs := (jsTrim s).toList
  match cs with
  | '-' :: rest =>
    !jsParseFloatHasNumber rest ||
      (rest.takeWhile (fun c => c.isDigit || c == '.')).any
        (fun c => c.isDigit && c != '0')
  | '+' :: rest => !jsParseFloatHasNumber rest
  | _ => !jsParseFloatHasNumber cs

/-- Result record of `validateEmployee`: the `isValid` flag plus the
ordered list of error messages. -/
structure ValidationResult where
  isValid : Bool
  errors : List String
deriving DecidableEq, Repr

/-- Embeds `validateEmployee` from `src/utils/validator.js`: a non-object
input is rejected immediately with a single format error; otherwise the
field rules run in order, each appending its error message. -/
def validateEmployee (employee : EmployeeInput) : ValidationResult :=
  match employee with
  | .obj e =>
    let errors : List String := []
    let errors := if isMissingOrBlank e.first_name then
        errors ++ ["First name is required"] else errors
    let errors := if isMissingOrBlank e.last_name then
        errors ++ ["Last name is required"] else errors
    let errors := if emailMissing e.email then
        errors ++ ["Email is required"]
      else if !isValidEmail (e.email.getD "") then
        errors ++ ["Email format is invalid"] else errors
    let errors := match e.hire_date with
      | some s => if (s != "") && jsDateParseFails s then
          errors ++ ["Hire date is invalid"] else errors
      | none => errors
    let errors := match e.salary with
      | some s => if (s != "") && jsSalaryInvalid s then
          errors ++ ["Salary must be a positive number"] else errors
      | none => errors
    ⟨errors.isEmpty, errors⟩
  | _ => ⟨false, ["Invalid employee data format"]⟩

/-- True exactly on the object inputs, the ones passing the JavaScript
guard `!employee || typeof employee !== 'object'`. -/
def isJsObjectInput : EmployeeInput → Bool
  | .obj _ => true
  | _ => false

/-- C8: validateEmployee is deterministic (a pure function of its input in
this embedding) and satisfies the three examples of the specification:
blank first name is reported, a malformed email is reported, and the
well-formed record validates with no errors. -/
theorem C8_validator_examples :
    ((validateEmployee (.obj ⟨some "", some "Lee", some "a@b.com", none, none⟩)).isValid = false
      ∧ "First name is required" ∈
          (validateEmployee (.obj ⟨some "", some "Lee", some "a@b.com", none, none⟩)).errors)
    ∧ ((validateEmployee (.obj ⟨some "A", some "B", some "not-an-email", none, none⟩)).isValid = false
      ∧ "Email format is invalid" ∈
          (validateEmployee (.obj ⟨some "A", some "B", some "not-an-email", none, none⟩)).errors)
    ∧ validateEmployee (.obj ⟨some "A", some "B", some "a@b.com", none, none⟩)
        = ⟨true, []⟩ := by
  decide

/-- C10: on any input that is not an object (null, undefined, number,
string, or boolean) validateEmployee returns invalid with exactly the
single error message, without evaluating any field rule. -/
theorem C10_non_object_input (i : EmployeeInput) (h : isJsObjectInput i = false) :
    validateEmployee i = ⟨false, ["Invalid employee data format"]⟩ := by
  cases i <;> simp_all [validateEmployee, isJsObjectInput]

/-- Witness for C10 at the concrete input `null`. -/
theorem C10_non_object_input_witness :
    isJsObjectInput .jsNull = false
      ∧ validateEmployee .jsNull = ⟨false, ["Invalid employee data format"]⟩ :=
  ⟨by decide, C10_non_object_input .jsNull (by decide)⟩

/-- Record pushed downstream by `EmployeeTransformer._transform` in
`src/lib/transformer.js`: the original chunk, the validity flag, and the
validation errors. -/
structure ValidatedRecord where
  data : EmployeeInput
  valid : Bool
  errors : List String
deriving DecidableEq, Repr

/-- Counters kept in `EmployeeTransformer.stats`. -/
structure TransformerStats where
  processed : Nat
  valid : Nat
  invalid : Nat
  errors : List (EmployeeInput × List String)
deriving DecidableEq, Repr

/-- Initial `EmployeeTransformer.stats` from the constructor. -/
def initialTransformerStats : TransformerStats := ⟨0, 0, 0, []⟩

/-- Embeds one call of `EmployeeTransformer._transform`: the processed
counter always increments, then exactly one of the valid or invalid
counters increments and the corresponding record is pushed. -/
def employeeTransformStep (stats : TransformerStats) (chunk : EmployeeInput) :
    TransformerStats × ValidatedRecord :=
  if (validateEmployee chunk).isValid then
    (⟨stats.processed + 1, stats.valid + 1, stats.invalid, stats.errors⟩,
     ⟨chunk, true, []⟩)
  else
    (⟨stats.processed + 1, stats.valid, stats.invalid + 1,
      stats.errors ++ [(chunk, (validateEmployee chunk).errors)]⟩,
     ⟨chunk, false, (validateEmployee chunk).errors⟩)

/-- Runs `EmployeeTransformer` over a finite input sequence, returning the
final stats and the pushed records (`_flush` only invokes the callback). -/
def runEmployeeTransformer (stats : TransformerStats) :
    List EmployeeInput → TransformerStats × List ValidatedRecord
  | [] => (stats, [])
  | c :: rest =>
    ((runEmployeeTransformer (employeeTransformStep stats c).1 rest).1,
     (employeeTransformStep stats c).2 ::
       (runEmployeeTransformer (employeeTransformStep stats c).1 rest).2)

/-- Processed and valid-plus-invalid counters both advance by the length
of the consumed input. -/
theorem runEmployeeTransformer_counts (input : List EmployeeInput) :
    ∀ stats : TransformerStats,
      (runEmployeeTransformer stats input).1.processed = stats.processed + input.length
      ∧ (runEmployeeTransformer stats input).1.valid
          + (runEmployeeTransformer stats input).1.invalid
          = stats.valid + stats.invalid + input.length := by
  induction input with
  | nil => intro stats; simp [runEmployeeTransformer]
  | cons c rest ih =>
    rintro ⟨p, v, i, e⟩
    cases h : (validateEmployee c).isValid with
    | true =>
      have h1 := (ih ⟨p + 1, v + 1, i, e⟩).1
      have h2 := (ih ⟨p + 1, v + 1, i, e⟩).2
      simp [runEmployeeTransformer, employeeTransformStep, h] at h1 h2 ⊢
      exact ⟨by omega, by omega⟩
    | false =>
      have h1 := (ih ⟨p + 1, v, i + 1, e ++ [(c, (validateEmployee c).errors)]⟩).1
      have h2 := (ih ⟨p + 1, v, i + 1, e ++ [(c, (validateEmployee c).errors)]⟩).2
      simp [runEmployeeTransformer, employeeTransformStep, h] at h1 h2 ⊢
      exact ⟨by omega, by omega⟩

/-- C7: for every input sequence and at every intermediate point (after
any number n of consumed records), the processed counter of the employee
transformer equals the sum of its valid and invalid counters. -/
theorem C7_processed_eq_valid_add_invalid (input : List EmployeeInput) (n : Nat) :
    (runEmployeeTransformer initialTransformerStats (input.take n)).1.processed
      = (runEmployeeTransformer initialTransformerStats (input.take n)).1.valid
        + (runEmployeeTransformer initialTransformerStats (input.take n)).1.invalid := by
  have h := runEmployeeTransformer_counts (input.take n) initialTransformerStats
  simp only [initialTransformerStats] at h ⊢
  omega

/-- Embeds the constructor default `options.batchSize || 100` of
`BatchTransformer`: a missing or zero (falsy) batch size becomes 100. -/
def batchSizeOf (opt : Option Nat) : Nat :=
  match opt with
  | some n => if n = 0 then 100 else n
  | none => 100

/-- The configured batch capacity is always positive. -/
theorem batchSizeOf_pos (opt : Option Nat) : 0 < batchSizeOf opt := by
  cases opt with
  | none => simp [batchSizeOf]
  | some n =>
    by_cases h : n = 0
    · simp [batchSizeOf, h]
    · simp only [batchSizeOf, h, if_false]
      omega

/-- A record survives the guard
`if (this.validOnly && !chunk.valid) return` of
`BatchTransformer._transform`. -/
def keepRecord (validOnly : Bool) (r : ValidatedRecord) : Bool :=
  !(validOnly && !r.valid)

/-- Embeds the record loop of `BatchTransformer._transform`: `cur` is the
in-progress `currentBatch`; the result is the list of batches pushed
during the transform phase together with the final in-progress batch. -/
def runBatch (B : Nat) (validOnly : Bool) :
    List ValidatedRecord → List ValidatedRecord →
      List (List ValidatedRecord) × List ValidatedRecord
  | cur, [] => ([], cur)
  | cur, c :: rest =>
    if validOnly && !c.valid then runBatch B validOnly cur rest
    else if B ≤ (cur ++ [c]).length then
      ((cur ++ [c]) :: (runBatch B validOnly [] rest).1,
       (runBatch B validOnly [] rest).2)
    else runBatch B validOnly (cur ++ [c]) rest

/-- Embeds `BatchTransformer._flush`: the in-progress batch is pushed only
when non-empty. -/
def flushEmit (cur : List ValidatedRecord) : List (List ValidatedRecord) :=
  if cur.isEmpty then [] else [cur]

/-- All batches emitted by a full run of `BatchTransformer` over a finite
input: the batches pushed by `_transform` followed by the `_flush` push. -/
def batcherOutput (B : Nat) (validOnly : Bool)
    (input : List ValidatedRecord) : List (List ValidatedRecord) :=
  (runBatch B validOnly [] input).1 ++ flushEmit (runBatch B validOnly [] input).2

/-- Concatenating the pushed batches with the final in-progress batch
recovers the in-progress prefix followed by the kept input records. -/
theorem runBatch_join (B : Nat) (vo : Bool) (input : List ValidatedRecord) :
    ∀ cur : List ValidatedRecord,
      (runBatch B vo cur input).1.flatten ++ (runBatch B vo cur input).2
        = cur ++ input.filter (keepRecord vo) := by
  induction input with
  | nil => intro cur; simp [runBatch]
  | cons c rest ih =>
    intro cur
    by_cases h : (vo && !c.valid) = true
    · simp [runBatch, h, keepRecord, ih cur]
    · by_cases h2 : B ≤ cur.length + 1
      · simp [runBatch, h, h2, keepRecord, ih []]
      · simp [runBatch, h, h2, keepRecord, ih (cur ++ [c])]

/-- Every batch pushed during the transform phase has length exactly `B`,
provided the in-progress batch is still below capacity. -/
theorem runBatch_full (B : Nat) (vo : Bool) (input : List ValidatedRecord) :
    ∀ cur : List ValidatedRecord, cur.length < B →
      ∀ b ∈ (runBatch B vo cur input).1, b.length = B := by
  induction input with
  | nil => intro cur _ b hb; simp [runBatch] at hb
  | cons c rest ih =>
    intro cur hcur b hb
    by_cases h : (vo && !c.valid) = true
    · exact ih cur hcur b (by simpa [runBatch, h] using hb)
    · by_cases h2 : B ≤ cur.length + 1
      · have hb2 : b = cur ++ [c] ∨ b ∈ (runBatch B vo [] rest).1 := by
          simpa [runBatch, h, h2] using hb
        have hB : 0 < B := by omega
        rcases hb2 with rfl | hb2
        · simp
          omega
        · exact ih [] (by simpa using hB) b hb2
      · have hlen : (cur ++ [c]).length < B := by
          simp
          omega
        exact ih (cur ++ [c]) hlen b (by simpa [runBatch, h, h2] using hb)

/-- The final in-progress batch stays strictly below capacity. -/
theorem runBatch_rem_lt (B : Nat) (vo : Bool) (input : List ValidatedRecord) :
    ∀ cur : List ValidatedRecord, cur.length < B →
      (runBatch B vo cur input).2.length < B := by
  induction input with
  | nil => intro cur hcur; simpa [runBatch] using hcur
  | cons c rest ih =>
    intro cur hcur
    by_cases h : (vo && !c.valid) = true
    · simpa [runBatch, h] using ih cur hcur
    · by_cases h2 : B ≤ cur.length + 1
      · have hB : 0 < B := by omega
        simpa [runBatch, h, h2] using ih [] (by simpa using hB)
      · have hlen : (cur ++ [c]).length < B := by
          simp
          omega
        simpa [runBatch, h, h2] using ih (cur ++ [c]) hlen

/-- Flattening the flush result recovers the in-progress batch. -/
theorem flushEmit_flatten (l : List ValidatedRecord) : (flushEmit l).flatten = l := by
  by_cases h : l.isEmpty
  · have hl : l = [] := by simpa using h
    simp [flushEmit, h, hl]
  · simp [flushEmit, h]

/-- Flattening a list of batches that all have length `B` yields
`B` times the number of batches. -/
theorem flatten_length_of_all {B : Nat} :
    ∀ {l : List (List ValidatedRecord)}, (∀ b ∈ l, b.length = B) →
      l.flatten.length = B * l.length := by
  intro l
  induction l with
  | nil => intro _; simp
  | cons a t ih =>
    intro h
    simp only [List.flatten_cons, List.length_append, List.length_cons]
    rw [h a (List.mem_cons_self a t), ih (fun b hb => h b (List.mem_cons_of_mem a hb))]
    ring

/-- The defaulted last element of a non-empty list is one of its
elements. -/
theorem getLastD_mem {α : Type} : ∀ (l : List α) (d : α), l ≠ [] → l.getLastD d ∈ l
  | [a], _, _ => by simp [List.getLastD]
  | a :: b :: t, d, _ => by
    have h := getLastD_mem (b :: t) a (by simp)
    simp only [List.getLastD]
    exact List.mem_cons_of_mem a h

/-- C5: every batch emitted by the batch transformer is non-empty and no
longer than the capacity `B`, and every batch emitted during the
transform phase (before end-of-input) has length exactly `B`. -/
theorem C5_batch_length_bounds (B : Nat) (vo : Bool)
    (input : List ValidatedRecord) (hB : 0 < B) :
    (∀ b ∈ batcherOutput B vo input, 0 < b.length ∧ b.length ≤ B)
    ∧ ∀ b ∈ (runBatch B vo [] input).1, b.length = B := by
  have hfull := runBatch_full B vo input [] (by simpa using hB)
  have hrem := runBatch_rem_lt B vo input [] (by simpa using hB)
  refine ⟨?_, hfull⟩
  intro b hb
  simp only [batcherOutput, List.mem_append] at hb
  rcases hb with hb | hb
  · have := hfull b hb
    omega
  · by_cases h : (runBatch B vo [] input).2.isEmpty
    · simp [flushEmit, h] at hb
    · simp only [flushEmit, h, Bool.false_eq_true, if_false, List.mem_singleton] at hb
      subst hb
      have hne : (runBatch B vo [] input).2 ≠ [] := by
        intro hh
        rw [hh] at h
        simp at h
      have hpos : 0 < (runBatch B vo [] input).2.length := List.length_pos.mpr hne
      exact ⟨hpos, by omega⟩

/-- Witness for C5: with capacity 2 and three valid records, the first
emitted batch is non-empty and within capacity. -/
theorem C5_batch_length_bounds_witness :
    0 < ([⟨.jsNull, true, []⟩, ⟨.jsNull, true, []⟩] : List ValidatedRecord).length
      ∧ ([⟨.jsNull, true, []⟩, ⟨.jsNull, true, []⟩] : List ValidatedRecord).length ≤ 2 :=
  (C5_batch_length_bounds 2 true
      [⟨.jsNull, true, []⟩, ⟨.jsNull, true, []⟩, ⟨.jsNull, true, []⟩] (by decide)).1
    [⟨.jsNull, true, []⟩, ⟨.jsNull, true, []⟩] (by decide)

/-- C6: with validity filtering enabled, the concatenation of all emitted
batches in emission order is exactly the valid subsequence of the input
in arrival order, and every record inside any emitted batch is valid. -/
theorem C6_flatten_eq_valid_filter (B : Nat) (input : List ValidatedRecord) :
    (batcherOutput B true input).flatten = input.filter (fun r => r.valid)
    ∧ ∀ b ∈ batcherOutput B true input, ∀ r ∈ b, r.valid = true := by
  have hjoin := runBatch_join B true input []
  have hkeep : keepRecord true = fun r : ValidatedRecord => r.valid := by
    funext r
    cases hr : r.valid <;> simp [keepRecord, hr]
  rw [hkeep] at hjoin
  have hmain : (batcherOutput B true input).flatten = input.filter fun r => r.valid := by
    simp only [batcherOutput, List.flatten_append, flushEmit_flatten]
    simpa using hjoin
  refine ⟨hmain, ?_⟩
  intro b hb r hr
  have hmem : r ∈ (batcherOutput B true input).flatten := List.mem_flatten.mpr ⟨b, hb, hr⟩
  rw [hmain] at hmem
  exact (List.mem_filter.mp hmem).2

/-- C4: for an input with at least one kept record and capacity B, the
full output is the transform-phase batches followed by the flush result;
the transform-phase batches all have length B; the flush emits at most
one batch and emits nothing exactly when the in-progress batch is empty;
and the last emitted batch has length `V mod B` when that is nonzero,
else `B`, where `V` counts the records reaching the current batch. -/
theorem C4_last_batch_and_single_flush (B : Nat) (vo : Bool)
    (input : List ValidatedRecord) (hB : 0 < B)
    (hV : 0 < (input.filter (keepRecord vo)).length) :
    batcherOutput B vo input
        = (runBatch B vo [] input).1 ++ flushEmit (runBatch B vo [] input).2
    ∧ (∀ b ∈ (runBatch B vo [] input).1, b.length = B)
    ∧ (flushEmit (runBatch B vo [] input).2).length ≤ 1
    ∧ (flushEmit (runBatch B vo [] input).2 = [] ↔ (runBatch B vo [] input).2 = [])
    ∧ ((batcherOutput B vo input).getLastD []).length
        = (if (input.filter (keepRecord vo)).length % B = 0 then B
           else (input.filter (keepRecord vo)).length % B) := by
  have hfull := runBatch_full B vo input [] (by simpa using hB)
  have hrem := runBatch_rem_lt B vo input [] (by simpa using hB)
  have hjoin := runBatch_join B vo input []
  have hflat : (runBatch B vo [] input).1.flatten.length
      = B * (runBatch B vo [] input).1.length := flatten_length_of_all hfull
  have hsum : B * (runBatch B vo [] input).1.length
      + (runBatch B vo [] input).2.length
      = (input.filter (keepRecord vo)).length := by
    have hlen := congrArg List.length hjoin
    simpa [hflat] using hlen
  have hmod : (input.filter (keepRecord vo)).length % B
      = (runBatch B vo [] input).2.length := by
    rw [← hsum, Nat.mul_add_mod]
    exact Nat.mod_eq_of_lt hrem
  refine ⟨rfl, hfull, ?_, ?_, ?_⟩
  · by_cases h : (runBatch B vo [] input).2.isEmpty
    · simp [flushEmit, h]
    · simp [flushEmit, h]
  · constructor
    · intro hfe
      by_cases h : (runBatch B vo [] input).2.isEmpty
      · simpa using h
      · simp [flushEmit, h] at hfe
    · intro h
      simp [flushEmit, h]
  · by_cases hr : (runBatch B vo [] input).2.length = 0
    · have hrem_nil : (runBatch B vo [] input).2 = [] := by
        cases hx : (runBatch B vo [] input).2 with
        | nil => rfl
        | cons a t => rw [hx] at hr; simp at hr
      have hVmod : (input.filter (keepRecord vo)).length % B = 0 := by
        rw [hmod, hr]
      have hq : (runBatch B vo [] input).1 ≠ [] := by
        intro hq
        rw [hq] at hsum
        rw [hrem_nil] at hsum
        simp at hsum
        omega
      rw [hVmod]
      simp only [batcherOutput, hrem_nil, flushEmit, List.isEmpty_nil, if_true,
        List.append_nil]
      exact hfull _ (getLastD_mem _ [] hq)
    · have hrem_ne : (runBatch B vo [] input).2 ≠ [] := by
        intro hh
        rw [hh] at hr
        simp at hr
      have hfe : flushEmit (runBatch B vo [] input).2 = [(runBatch B vo [] input).2] := by
        have : (runBatch B vo [] input).2.isEmpty = false := by
          cases hx : (runBatch B vo [] input).2 with
          | nil => exact absurd hx hrem_ne
          | cons a t => simp
        simp [flushEmit, this]
      have hVmod : (input.filter (keepRecord vo)).length % B ≠ 0 := by
        rw [hmod]
        exact hr
      rw [if_neg hVmod]
      simp only [batcherOutput, hfe]
      rw [List.getLastD_concat]
      exact hmod.symm

/-- Witness for C4 at capacity 2 with three valid records: the last batch
has length 3 mod 2 = 1. -/
theorem C4_last_batch_and_single_flush_witness :
    ((batcherOutput 2 true
        [⟨.jsNull, true, []⟩, ⟨.jsNull, true, []⟩, ⟨.jsNull, true, []⟩]).getLastD []).length
      = (if (([⟨.jsNull, true, []⟩, ⟨.jsNull, true, []⟩,
              ⟨.jsNull, true, []⟩] : List ValidatedRecord).filter
                (keepRecord true)).length % 2 = 0 then 2
         else (([⟨.jsNull, true, []⟩, ⟨.jsNull, true, []⟩,
              ⟨.jsNull, true, []⟩] : List ValidatedRecord).filter
                (keepRecord true)).length % 2) :=
  (C4_last_batch_and_single_flush 2 true
      [⟨.jsNull, true, []⟩, ⟨.jsNull, true, []⟩, ⟨.jsNull, true, []⟩]
      (by decide) (by decide)).2.2.2.2

/-- Email field the row insert destructures from a record payload
(`const { email, ... } = employee`); non-object payloads carry none. -/
def emailOf : EmployeeInput → Option String
  | .obj e => e.email
  | _ => none

/-- Abstract state of the employees table: the emails already stored
(unique-constrained), plus the emails whose insert raises a database
error other than a unique violation (modelling transient failures). -/
structure DBState where
  emails : List (Option String)
  erroring : List (Option String)
deriving DecidableEq, Repr

/-- Outcome of a single-row insert in `src/models/employee.js`: a new
store state on success, a null return on a unique violation (error code
23505), or a re-thrown database error. -/
inductive InsertOutcome where
  | ok (db : DBState)
  | dup
  | err (msg : String)
deriving DecidableEq, Repr

/-- Embeds `Employee.insert`: a unique-key violation on email returns
null leaving the store unchanged, any other database error propagates,
and success appends the row. -/
def Employee.insert (db : DBState) (e : EmployeeInput) : InsertOutcome :=
  if emailOf e ∈ db.erroring then .err "database error"
  else if emailOf e ∈ db.emails then .dup
  else .ok ⟨db.emails ++ [emailOf e], db.erroring⟩

/-- Row-by-row effect of the single multi-row INSERT statement inside
`Employee.batchInsert`: the first duplicate or erroring row aborts the
whole statement. -/
def Employee.batchInsertGo (db : DBState) : List EmployeeInput → Option DBState
  | [] => some db
  | e :: rest =>
    match Employee.insert db e with
    | .ok db2 => Employee.batchInsertGo db2 rest
    | _ => none

/-- Embeds `Employee.batchInsert`: an empty batch returns no ids; a
non-empty batch runs in one transaction which either commits, returning
one inserted id per row, or rolls back entirely (store unchanged) and
propagates the error (`none`). -/
def Employee.batchInsert (db : DBState) (emps : List EmployeeInput) :
    Option (DBState × Nat) :=
  if emps.isEmpty then some (db, 0)
  else
    match Employee.batchInsertGo db emps with
    | some db2 => some (db2, emps.length)
    | none => none

/-- Counters kept in `DatabaseWriter.stats` in `src/lib/database.js`. -/
structure WriterStats where
  totalProcessed : Nat
  successfulInserts : Nat
  failedInserts : Nat
  errors : List String
deriving DecidableEq, Repr

/-- Initial `DatabaseWriter.stats` from the constructor. -/
def initialWriterStats : WriterStats := ⟨0, 0, 0, []⟩

/-- Embeds the per-record fallback loop in the catch branch of
`DatabaseWriter._write`: each valid record is attempted in its own unit
of work; a null return (duplicate email) counts as a failed insert with
the duplicate reason; a thrown error counts as a failed insert with its
message; neither stops the loop. -/
def fallbackInserts (db : DBState) (stats : WriterStats) :
    List EmployeeInput → DBState × WriterStats
  | [] => (db, stats)
  | e :: rest =>
    match Employee.insert db e with
    | .ok db2 =>
      fallbackInserts db2
        ⟨stats.totalProcessed, stats.successfulInserts + 1,
         stats.failedInserts, stats.errors⟩ rest
    | .dup =>
      fallbackInserts db
        ⟨stats.totalProcessed, stats.successfulInserts, stats.failedInserts + 1,
         stats.errors ++ ["Failed to insert record (likely duplicate email)"]⟩ rest
    | .err msg =>
      fallbackInserts db
        ⟨stats.totalProcessed, stats.successfulInserts, stats.failedInserts + 1,
         stats.errors ++ [msg]⟩ rest

/-- Embeds `DatabaseWriter._write` for one chunk: empty chunks return at
once; otherwise totalProcessed advances by the chunk length, the valid
records are extracted, and the batched insert is attempted, falling back
to the per-record loop when it throws. -/
def writeChunk (db : DBState) (stats : WriterStats)
    (records : List ValidatedRecord) : DBState × WriterStats :=
  if records.isEmpty then (db, stats)
  else if ((records.filter fun r => r.valid).map fun r => r.data).isEmpty then
    (db, ⟨stats.totalProcessed + records.length, stats.successfulInserts,
          stats.failedInserts, stats.errors⟩)
  else
    match Employee.batchInsert db ((records.filter fun r => r.valid).map fun r => r.data) with
    | some (db2, n) =>
      (db2, ⟨stats.totalProcessed + records.length, stats.successfulInserts + n,
             stats.failedInserts, stats.errors⟩)
    | none =>
      fallbackInserts db
        ⟨stats.totalProcessed + records.length, stats.successfulInserts,
         stats.failedInserts, stats.errors⟩
        ((records.filter fun r => r.valid).map fun r => r.data)

/-- Runs `DatabaseWriter` over a finite sequence of delivered chunks. -/
def runWriter (db : DBState) (stats : WriterStats) :
    List (List ValidatedRecord) → DBState × WriterStats
  | [] => (db, stats)
  | c :: rest => runWriter (writeChunk db stats c).1 (writeChunk db stats c).2 rest

/-- Number of valid records among the delivered chunks. -/
def validDelivered (chunks : List (List ValidatedRecord)) : Nat :=
  (chunks.map fun c => (c.filter fun r => r.valid).length).sum

/-- A non-empty list is not `isEmpty`. -/
theorem isEmpty_false_of_ne {α : Type} (l : List α) (h : l ≠ []) :
    l.isEmpty = false := by
  cases l with
  | nil => exact absurd rfl h
  | cons a t => rfl

/-- Every record handed to the fallback loop is attempted, and each one
increments exactly one of the two outcome counters. -/
theorem fallbackInserts_sum (emps : List EmployeeInput) :
    ∀ (db : DBState) (stats : WriterStats),
      (fallbackInserts db stats emps).2.successfulInserts
        + (fallbackInserts db stats emps).2.failedInserts
        = stats.successfulInserts + stats.failedInserts + emps.length := by
  induction emps with
  | nil => intro db stats; simp [fallbackInserts]
  | cons e rest ih =>
    intro db stats
    cases h : Employee.insert db e with
    | ok db2 =>
      have h1 := ih db2 ⟨stats.totalProcessed, stats.successfulInserts + 1,
        stats.failedInserts, stats.errors⟩
      simp only [fallbackInserts, h] at h1 ⊢
      simp at h1 ⊢
      omega
    | dup =>
      have h1 := ih db ⟨stats.totalProcessed, stats.successfulInserts,
        stats.failedInserts + 1,
        stats.errors ++ ["Failed to insert record (likely duplicate email)"]⟩
      simp only [fallbackInserts, h] at h1 ⊢
      simp at h1 ⊢
      omega
    | err msg =>
      have h1 := ih db ⟨stats.totalProcessed, stats.successfulInserts,
        stats.failedInserts + 1, stats.errors ++ [msg]⟩
      simp only [fallbackInserts, h] at h1 ⊢
      simp at h1 ⊢
      omega

/-- The failed-insert counter never decreases through the fallback loop. -/
theorem fallbackInserts_failed_mono (emps : List EmployeeInput) :
    ∀ (db : DBState) (stats : WriterStats),
      stats.failedInserts ≤ (fallbackInserts db stats emps).2.failedInserts := by
  induction emps with
  | nil => intro db stats; simp [fallbackInserts]
  | cons e rest ih =>
    intro db stats
    cases h : Employee.insert db e with
    | ok db2 =>
      have h1 := ih db2 ⟨stats.totalProcessed, stats.successfulInserts + 1,
        stats.failedInserts, stats.errors⟩
      simp only [fallbackInserts, h] at h1 ⊢
      simpa using h1
    | dup =>
      have h1 := ih db ⟨stats.totalProcessed, stats.successfulInserts,
        stats.failedInserts + 1,
        stats.errors ++ ["Failed to insert record (likely duplicate email)"]⟩
      simp only [fallbackInserts, h] at h1 ⊢
      omega
    | err msg =>
      have h1 := ih db ⟨stats.totalProcessed, stats.successfulInserts,
        stats.failedInserts + 1, stats.errors ++ [msg]⟩
      simp only [fallbackInserts, h] at h1 ⊢
      omega

/-- A committed batched insert reports one inserted id per row. -/
theorem Employee.batchInsert_count (db : DBState) (emps : List EmployeeInput)
    (db2 : DBState) (n : Nat) (h : Employee.batchInsert db emps = some (db2, n)) :
    n = emps.length := by
  by_cases he : emps.isEmpty
  · have hnil : emps = [] := by simpa using he
    subst hnil
    simp only [Employee.batchInsert, List.isEmpty_nil, if_true, Option.some.injEq,
      Prod.mk.injEq] at h
    simpa using h.2.symm
  · simp only [Employee.batchInsert, he, Bool.false_eq_true, if_false] at h
    cases hg : Employee.batchInsertGo db emps with
    | some dbx => rw [hg] at h; simp at h; exact h.2.symm
    | none => rw [hg] at h; simp at h

/-- Per-chunk accounting: the two outcome counters together advance by
exactly the number of valid records in the chunk. -/
theorem writeChunk_sum (db : DBState) (stats : WriterStats)
    (records : List ValidatedRecord) :
    (writeChunk db stats records).2.successfulInserts
      + (writeChunk db stats records).2.failedInserts
      = stats.successfulInserts + stats.failedInserts
        + (records.filter fun r => r.valid).length := by
  by_cases h0 : records.isEmpty
  · have hnil : records = [] := by simpa using h0
    simp [writeChunk, h0, hnil]
  · by_cases h1 : ((records.filter fun r => r.valid).map fun r => r.data).isEmpty
    · have hf : (records.filter fun r => r.valid) = [] := by
        simpa using h1
      simp [writeChunk, h0, h1, hf]
    · cases hb : Employee.batchInsert db
          ((records.filter fun r => r.valid).map fun r => r.data) with
      | some p =>
        obtain ⟨db2, n⟩ := p
        have hn : n = ((records.filter fun r => r.valid).map fun r => r.data).length :=
          Employee.batchInsert_count _ _ _ _ hb
        simp only [writeChunk, h0, h1, hb, Bool.false_eq_true, if_false]
        simp [hn]
        omega
      | none =>
        have hs := fallbackInserts_sum
          ((records.filter fun r => r.valid).map fun r => r.data) db
          ⟨stats.totalProcessed + records.length, stats.successfulInserts,
           stats.failedInserts, stats.errors⟩
        simp only [writeChunk, h0, h1, hb, Bool.false_eq_true, if_false]
        simp only [List.length_map] at hs
        omega

/-- Per-chunk monotonicity: the failed-insert counter never decreases. -/
theorem writeChunk_failed_mono (db : DBState) (stats : WriterStats)
    (records : List ValidatedRecord) :
    stats.failedInserts ≤ (writeChunk db stats records).2.failedInserts := by
  by_cases h0 : records.isEmpty
  · simp [writeChunk, h0]
  · by_cases h1 : ((records.filter fun r => r.valid).map fun r => r.data).isEmpty
    · simp [writeChunk, h0, h1]
    · cases hb : Employee.batchInsert db
          ((records.filter fun r => r.valid).map fun r => r.data) with
      | some p =>
        obtain ⟨db2, n⟩ := p
        simp [writeChunk, h0, h1, hb]
      | none =>
        have hm := fallbackInserts_failed_mono
          ((records.filter fun r => r.valid).map fun r => r.data) db
          ⟨stats.totalProcessed + records.length, stats.successfulInserts,
           stats.failedInserts, stats.errors⟩
        simp only [writeChunk, h0, h1, hb, Bool.false_eq_true, if_false]
        simpa using hm

/-- Full-run accounting over all delivered chunks. -/
theorem runWriter_sum (chunks : List (List ValidatedRecord)) :
    ∀ (db : DBState) (stats : WriterStats),
      (runWriter db stats chunks).2.successfulInserts
        + (runWriter db stats chunks).2.failedInserts
        = stats.successfulInserts + stats.failedInserts + validDelivered chunks := by
  induction chunks with
  | nil => intro db stats; simp [runWriter, validDelivered]
  | cons c rest ih =>
    intro db stats
    have h1 := ih (writeChunk db stats c).1 (writeChunk db stats c).2
    have h2 := writeChunk_sum db stats c
    simp only [runWriter, validDelivered, List.map_cons, List.sum_cons] at h1 ⊢
    omega

/-- Full-run monotonicity of the failed-insert counter. -/
theorem runWriter_failed_mono (chunks : List (List ValidatedRecord)) :
    ∀ (db : DBState) (stats : WriterStats),
      stats.failedInserts ≤ (runWriter db stats chunks).2.failedInserts := by
  induction chunks with
  | nil => intro db stats; simp [runWriter]
  | cons c rest ih =>
    intro db stats
    have h1 := ih (writeChunk db stats c).1 (writeChunk db stats c).2
    have h2 := writeChunk_failed_mono db stats c
    simp only [runWriter]
    omega

/-- C1: when the batched insert of a chunk's valid records fails, the
writer proceeds from the rolled-back (unchanged) store with independent
per-record inserts; in that loop a unique-key violation on email counts
as one more failed insert with the duplicate reason, a success counts as
one more successful insert, and every record of the batch is attempted:
the two counters together advance by the batch length. -/
theorem C1_batch_failure_fallback (db : DBState) (stats : WriterStats)
    (records : List ValidatedRecord)
    (hne : records ≠ [])
    (hv : ((records.filter fun r => r.valid).map fun r => r.data) ≠ [])
    (hfail : Employee.batchInsert db
        ((records.filter fun r => r.valid).map fun r => r.data) = none) :
    writeChunk db stats records
        = fallbackInserts db
            ⟨stats.totalProcessed + records.length, stats.successfulInserts,
             stats.failedInserts, stats.errors⟩
            ((records.filter fun r => r.valid).map fun r => r.data)
    ∧ (∀ (db0 : DBState) (st0 : WriterStats) (e : EmployeeInput)
          (rest : List EmployeeInput),
        emailOf e ∉ db0.erroring → emailOf e ∈ db0.emails →
          fallbackInserts db0 st0 (e :: rest)
            = fallbackInserts db0
                ⟨st0.totalProcessed, st0.successfulInserts, st0.failedInserts + 1,
                 st0.errors ++ ["Failed to insert record (likely duplicate email)"]⟩
                rest)
    ∧ (∀ (db0 : DBState) (st0 : WriterStats) (e : EmployeeInput)
          (rest : List EmployeeInput),
        emailOf e ∉ db0.erroring → emailOf e ∉ db0.emails →
          fallbackInserts db0 st0 (e :: rest)
            = fallbackInserts ⟨db0.emails ++ [emailOf e], db0.erroring⟩
                ⟨st0.totalProcessed, st0.successfulInserts + 1, st0.failedInserts,
                 st0.errors⟩ rest)
    ∧ ∀ (db0 : DBState) (st0 : WriterStats) (emps : List EmployeeInput),
        (fallbackInserts db0 st0 emps).2.successfulInserts
          + (fallbackInserts db0 st0 emps).2.failedInserts
          = st0.successfulInserts + st0.failedInserts + emps.length := by
  refine ⟨?_, ?_, ?_, fun db0 st0 emps => fallbackInserts_sum emps db0 st0⟩
  · have h0 := isEmpty_false_of_ne records hne
    have h1 := isEmpty_false_of_ne _ hv
    simp only [writeChunk, h0, h1, hfail, Bool.false_eq_true, if_false]
  · intro db0 st0 e rest herr hmem
    have hins : Employee.insert db0 e = .dup := by
      simp [Employee.insert, herr, hmem]
    simp only [fallbackInserts, hins]
  · intro db0 st0 e rest herr hmem
    have hins : Employee.insert db0 e
        = .ok ⟨db0.emails ++ [emailOf e], db0.erroring⟩ := by
      simp [Employee.insert, herr, hmem]
    simp only [fallbackInserts, hins]

/-- Concrete store for the C1 witness: one stored email and no
transiently erroring emails. -/
def dbSeed : DBState := ⟨[some "x@y.z"], []⟩

/-- Concrete valid record whose email already exists in `dbSeed`. -/
def recDup : ValidatedRecord :=
  ⟨.obj ⟨some "A", some "B", some "x@y.z", none, none⟩, true, []⟩

/-- Witness for C1: the single-record batch with a duplicate email makes
the batched insert fail, and the chunk is written through the fallback
loop from the unchanged store. -/
theorem C1_batch_failure_fallback_witness :
    Employee.batchInsert dbSeed
        (([recDup].filter fun r => r.valid).map fun r => r.data) = none
    ∧ writeChunk dbSeed initialWriterStats [recDup]
        = fallbackInserts dbSeed
            ⟨initialWriterStats.totalProcessed + [recDup].length,
             initialWriterStats.successfulInserts, initialWriterStats.failedInserts,
             initialWriterStats.errors⟩
            (([recDup].filter fun r => r.valid).map fun r => r.data) :=
  ⟨by decide,
   (C1_batch_failure_fallback dbSeed initialWriterStats [recDup]
      (by decide) (by decide) (by decide)).1⟩

/-- C2: starting from fresh counters, the stored count never exceeds the
number of valid records delivered so far (at chunk granularity, and at
record granularity inside any fallback loop), and after a full run the
stored and failed counts together account for every valid record
delivered. -/
theorem C2_stored_bounded_and_accounted (db : DBState)
    (chunks : List (List ValidatedRecord)) :
    (∀ n : Nat,
      (runWriter db initialWriterStats (chunks.take n)).2.successfulInserts
        ≤ validDelivered (chunks.take n))
    ∧ ((runWriter db initialWriterStats chunks).2.successfulInserts
        + (runWriter db initialWriterStats chunks).2.failedInserts
        = validDelivered chunks)
    ∧ ∀ (db0 : DBState) (st0 : WriterStats) (emps : List EmployeeInput) (n : Nat),
        (fallbackInserts db0 st0 (emps.take n)).2.successfulInserts
          ≤ st0.successfulInserts + (emps.take n).length := by
  refine ⟨?_, ?_, ?_⟩
  · intro n
    have hs := runWriter_sum (chunks.take n) db initialWriterStats
    simp only [initialWriterStats] at hs ⊢
    omega
  · have hs := runWriter_sum chunks db initialWriterStats
    simp only [initialWriterStats] at hs ⊢
    omega
  · intro db0 st0 emps n
    have hs := fallbackInserts_sum (emps.take n) db0 st0
    have hm := fallbackInserts_failed_mono (emps.take n) db0 st0
    omega

/-- Options of `MemoryMonitor` relevant to throttling: the threshold in
MB and the `autoThrottle` flag. -/
structure MonitorOptions where
  thresholdMB : ℚ
  autoThrottle : Bool

/-- Embeds `MemoryMonitor._onMemoryUpdate` acting on the `throttling`
flag: above the threshold the flag turns on (when auto-throttling is
enabled); an active flag turns off only when usage drops strictly below
80 percent of the threshold; otherwise the flag is unchanged. -/
def onMemoryUpdate (opts : MonitorOptions) (throttling : Bool)
    (currentUsageMB : ℚ) : Bool :=
  if opts.thresholdMB < currentUsageMB then
    (if !throttling && opts.autoThrottle then true else throttling)
  else if throttling && decide (currentUsageMB < opts.thresholdMB * (8 / 10)) then
    false
  else throttling

/-- C3: with auto-throttling enabled and a positive threshold T, the
throttling flag follows the hysteresis state machine: it switches on at a
sample strictly above T; while on, a sample between 0.8*T and T leaves it
on; it is off after a sample exactly when that sample is strictly below
0.8*T; and concretely for T = 100 the flag turns on at 101, stays on at
90, stays on at any sample at least 80, and turns off at 79. -/
theorem C3_hysteresis_state_machine (T sample : ℚ) (thr : Bool) (hT : 0 < T) :
    (thr = false → T < sample → onMemoryUpdate ⟨T, true⟩ thr sample = true)
    ∧ (thr = true → T * (8 / 10) ≤ sample → sample ≤ T →
        onMemoryUpdate ⟨T, true⟩ thr sample = true)
    ∧ (thr = true →
        (onMemoryUpdate ⟨T, true⟩ thr sample = false ↔ sample < T * (8 / 10)))
    ∧ (onMemoryUpdate ⟨(100 : ℚ), true⟩ false 101 = true
       ∧ onMemoryUpdate ⟨(100 : ℚ), true⟩ true 90 = true
       ∧ onMemoryUpdate ⟨(100 : ℚ), true⟩ true 79 = false
       ∧ ∀ s : ℚ, 80 ≤ s → onMemoryUpdate ⟨(100 : ℚ), true⟩ true s = true) := by
  refine ⟨?_, ?_, ?_, ?_, ?_, ?_, ?_⟩
  · rintro rfl hs
    simp [onMemoryUpdate, hs]
  · rintro rfl hlow hhigh
    simp only [onMemoryUpdate]
    by_cases h1 : T < sample
    · simp [h1]
    · have h2 : ¬ sample < T * (8 / 10) := by linarith
      simp [h1, h2]
  · rintro rfl
    constructor
    · intro hres
      by_cases h1 : T < sample
      · simp [onMemoryUpdate, h1] at hres
      · by_cases h2 : sample < T * (8 / 10)
        · exact h2
        · simp [onMemoryUpdate, h1, h2] at hres
    · intro h2
      have h1 : ¬ T < sample := by nlinarith
      simp [onMemoryUpdate, h1, h2]
  · norm_num [onMemoryUpdate]
  · norm_num [onMemoryUpdate]
  · norm_num [onMemoryUpdate]
  · intro s hs
    simp only [onMemoryUpdate]
    by_cases h1 : (100 : ℚ) < s
    · simp [h1]
    · have h2 : ¬ s < (100 : ℚ) * (8 / 10) := by linarith
      simp [h1, h2]

/-- Witness for C3: at threshold 100 a non-throttling state and a 101 MB
sample switch the flag on. -/
theorem C3_hysteresis_state_machine_witness :
    onMemoryUpdate ⟨(100 : ℚ), true⟩ false 101 = true :=
  (C3_hysteresis_state_machine 100 101 false (by norm_num)).1 rfl (by norm_num)

/-- State of `MemoryGraph` restricted to the heap-used series: the
retained data points and the running maximum. -/
structure GraphState where
  heapUsed : List ℚ
  maxMemoryUsed : ℚ
deriving DecidableEq, Repr

/-- Embeds `MemoryGraph._updateDataCollection` for one series: push the
value, then shift out the oldest point when the series exceeds
`maxDataPoints`. -/
def updateDataCollection (maxDataPoints : Nat) (data : List ℚ) (value : ℚ) : List ℚ :=
  if maxDataPoints < (data ++ [value]).length then (data ++ [value]).drop 1
  else data ++ [value]

/-- `maxDataPoints` the memory monitor passes to its graph
(`new MemoryGraph({ maxDataPoints: 120, ... })`). -/
def monitorMaxDataPoints : Nat := 120

/-- Embeds `MemoryGraph._captureMemoryUsage` for the heap-used series:
the running maximum is raised on a strictly larger sample and the sample
is appended to the bounded series. -/
def captureSample (st : GraphState) (heapUsedMB : ℚ) : GraphState :=
  ⟨updateDataCollection monitorMaxDataPoints st.heapUsed heapUsedMB,
   if st.maxMemoryUsed < heapUsedMB then heapUsedMB else st.maxMemoryUsed⟩

/-- Statistics object returned by `MemoryGraph.getStats`. -/
structure GraphStats where
  current : ℚ
  max : ℚ
  average : ℚ
deriving DecidableEq, Repr

/-- Embeds `MemoryGraph.getStats`: zeros with no data, otherwise the last
retained sample, the running maximum, and the mean of the retained
series. -/
def getStats (st : GraphState) : GraphStats :=
  if st.heapUsed.isEmpty then ⟨0, 0, 0⟩
  else ⟨st.heapUsed.getLastD 0, st.maxMemoryUsed,
        st.heapUsed.sum / (st.heapUsed.length : ℚ)⟩

/-- Runs the memory graph from `start()` (empty series, zero maximum)
over a finite sequence of heap-used samples. -/
def runMonitor (samples : List ℚ) : GraphState :=
  samples.foldl captureSample ⟨[], 0⟩

/-- The retained series never exceeds the bound and reaches it as soon as
enough samples arrived. -/
theorem foldl_captureSample_length (samples : List ℚ) :
    ∀ st : GraphState, st.heapUsed.length ≤ 120 →
      (samples.foldl captureSample st).heapUsed.length
        = min (st.heapUsed.length + samples.length) 120 := by
  induction samples with
  | nil => intro st h; simp; omega
  | cons v rest ih =>
    intro st h
    have hcap : (captureSample st v).heapUsed.length
        = min (st.heapUsed.length + 1) 120 := by
      simp only [captureSample, updateDataCollection, monitorMaxDataPoints,
        List.length_append, List.length_cons, List.length_nil]
      by_cases hlt : 120 < st.heapUsed.length + 1
      · simp [hlt]
        omega
      · simp [hlt]
        omega
    have := ih (captureSample st v) (by omega)
    simp only [List.foldl_cons, List.length_cons]
    rw [this, hcap]
    omega

/-- The retained series is always a suffix of all samples seen so far. -/
theorem foldl_captureSample_suffix (samples : List ℚ) :
    ∀ st : GraphState, ∃ t : List ℚ,
      t ++ (samples.foldl captureSample st).heapUsed = st.heapUsed ++ samples := by
  induction samples with
  | nil => intro st; exact ⟨[], by simp⟩
  | cons v rest ih =>
    intro st
    obtain ⟨t, ht⟩ := ih (captureSample st v)
    by_cases hlt : 120 < (st.heapUsed ++ [v]).length
    · have hcap : (captureSample st v).heapUsed = (st.heapUsed ++ [v]).drop 1 := by
        simp only [captureSample, updateDataCollection, monitorMaxDataPoints]
        rw [if_pos hlt]
      refine ⟨(st.heapUsed ++ [v]).take 1 ++ t, ?_⟩
      simp only [List.foldl_cons]
      rw [List.append_assoc, ht, hcap, ← List.append_assoc, List.take_append_drop]
      simp
    · have hcap : (captureSample st v).heapUsed = st.heapUsed ++ [v] := by
        simp only [captureSample, updateDataCollection, monitorMaxDataPoints]
        rw [if_neg hlt]
      refine ⟨t, ?_⟩
      simp only [List.foldl_cons]
      rw [ht, hcap]
      simp

/-- The running maximum kept by `captureSample` is the fold of the
pointwise maximum step over the samples. -/
theorem foldl_captureSample_max (samples : List ℚ) :
    ∀ st : GraphState, (samples.foldl captureSample st).maxMemoryUsed
      = samples.foldl (fun m v => if m < v then v else m) st.maxMemoryUsed := by
  induction samples with
  | nil => intro st; simp
  | cons v rest ih =>
    intro st
    simp only [List.foldl_cons]
    rw [ih (captureSample st v)]
    rfl


/-- The maximum fold dominates its seed and every sample, and is either
the seed or one of the samples. -/
theorem foldl_max_spec (l : List ℚ) :
    ∀ a : ℚ, a ≤ l.foldl (fun m v => if m < v then v else m) a
      ∧ (∀ x ∈ l, x ≤ l.foldl (fun m v => if m < v then v else m) a)
      ∧ (l.foldl (fun m v => if m < v then v else m) a = a
          ∨ l.foldl (fun m v => if m < v then v else m) a ∈ l) := by
  induction l with
  | nil => intro a; simp
  | cons v rest ih =>
    intro a
    simp only [List.foldl_cons]
    by_cases h : a < v
    · rw [if_pos h]
      obtain ⟨h1, h2, h3⟩ := ih v
      refine ⟨le_trans h.le h1, ?_, ?_⟩
      · intro x hx
        rcases List.mem_cons.mp hx with rfl | hx
        · exact h1
        · exact h2 x hx
      · rcases h3 with h3 | h3
        · rw [h3]
          exact Or.inr (List.mem_cons_self v rest)
        · exact Or.inr (List.mem_cons_of_mem v h3)
    · rw [if_neg h]
      obtain ⟨h1, h2, h3⟩ := ih a
      refine ⟨h1, ?_, ?_⟩
      · intro x hx
        rcases List.mem_cons.mp hx with rfl | hx
        · exact le_trans (not_lt.mp h) h1
        · exact h2 x hx
      · rcases h3 with h3 | h3
        · exact Or.inl h3
        · exact Or.inr (List.mem_cons_of_mem v h3)

/-- With data present, the reported average is the mean of the retained
series. -/
theorem getStats_average (st : GraphState) (h : st.heapUsed.isEmpty = false) :
    (getStats st).average = st.heapUsed.sum / (st.heapUsed.length : ℚ) := by
  simp [getStats, h]

/-- With data present, the reported maximum is the running maximum. -/
theorem getStats_max (st : GraphState) (h : st.heapUsed.isEmpty = false) :
    (getStats st).max = st.maxMemoryUsed := by
  simp [getStats, h]

/-- The 121 heap-used samples used to separate the retained-window mean
from the all-samples mean. -/
def badSamples : List ℚ := (121 : ℚ) :: List.replicate 120 (0 : ℚ)

/-- Counterexample to C9 as stated: after 121 samples (121 followed by
120 zeros) the reported average is the mean of the retained 120-sample
window (0), not the mean over all samples since start (1). -/
theorem C9_average_not_global_mean :
    ¬ ((getStats (runMonitor badSamples)).average
        = badSamples.sum / (badSamples.length : ℚ)) := by
  have hblen : badSamples.length = 121 := by simp [badSamples]
  have hproj : ({ heapUsed := ([] : List ℚ), maxMemoryUsed := (0 : ℚ) }
      : GraphState).heapUsed.length = 0 := rfl
  have hl : (runMonitor badSamples).heapUsed.length = 120 := by
    have hle := foldl_captureSample_length badSamples ⟨[], 0⟩ (by simp)
    simp only [runMonitor]
    rw [hle, hproj, hblen]
    omega
  obtain ⟨t, ht⟩ := foldl_captureSample_suffix badSamples ⟨[], 0⟩
  have hfoldlen : (badSamples.foldl captureSample ⟨[], 0⟩).heapUsed.length = 120 := hl
  have htl : t.length = 1 := by
    have hc := congrArg List.length ht
    simp only [List.length_append] at hc
    rw [hfoldlen, hblen, hproj] at hc
    omega
  obtain ⟨x, hx⟩ := List.length_eq_one.mp htl
  subst hx
  have ht2 : x :: (runMonitor badSamples).heapUsed = badSamples := by
    simpa using ht
  have ht3 : x :: (runMonitor badSamples).heapUsed
      = (121 : ℚ) :: List.replicate 120 (0 : ℚ) := ht2
  injection ht3 with hx1 hx2
  have hemp : (runMonitor badSamples).heapUsed.isEmpty = false := by
    rw [hx2]
    rfl
  intro heq
  rw [getStats_average _ hemp, hx2] at heq
  rw [hblen] at heq
  have hsum : badSamples.sum = 121 := by
    simp [badSamples, List.sum_replicate]
  rw [hsum] at heq
  norm_num [List.sum_replicate, List.length_replicate] at heq

/-- C9 (amended): the reported max is the running maximum of heap-used
over all samples since start; at most the most recent 120 samples are
retained (the retained series is a suffix of the samples, of length
min(total, 120)); and the reported average is the mean over the retained
window, not over all samples since start. -/
theorem C9_stats_amended (samples : List ℚ) (hne : samples ≠ [])
    (hnn : ∀ x ∈ samples, 0 ≤ x) :
    ((∀ x ∈ samples, x ≤ (getStats (runMonitor samples)).max)
      ∧ (getStats (runMonitor samples)).max ∈ samples)
    ∧ (∃ t : List ℚ, t ++ (runMonitor samples).heapUsed = samples)
    ∧ (runMonitor samples).heapUsed.length = min samples.length 120
    ∧ (getStats (runMonitor samples)).average
        = (runMonitor samples).heapUsed.sum
            / ((runMonitor samples).heapUsed.length : ℚ) := by
  have hproj0 : ({ heapUsed := ([] : List ℚ), maxMemoryUsed := (0 : ℚ) }
      : GraphState).heapUsed.length = 0 := rfl
  have hlen : (runMonitor samples).heapUsed.length = min samples.length 120 := by
    have hle := foldl_captureSample_length samples ⟨[], 0⟩ (by simp)
    simp only [runMonitor]
    rw [hle, hproj0]
    omega
  have hne_len : samples.length ≠ 0 := by
    intro h0
    exact hne (List.eq_nil_of_length_eq_zero h0)
  have hemp : (runMonitor samples).heapUsed.isEmpty = false := by
    cases hz : (runMonitor samples).heapUsed with
    | nil =>
      exfalso
      rw [hz] at hlen
      simp at hlen
      omega
    | cons a l => rfl
  have hmax : (getStats (runMonitor samples)).max
      = samples.foldl (fun m v => if m < v then v else m) 0 := by
    rw [getStats_max _ hemp]
    have hm := foldl_captureSample_max samples ⟨[], 0⟩
    simpa [runMonitor] using hm
  obtain ⟨hseed, hub, hor⟩ := foldl_max_spec samples 0
  refine ⟨⟨?_, ?_⟩, ?_, hlen, getStats_average _ hemp⟩
  · intro x hx
    rw [hmax]
    exact hub x hx
  · rw [hmax]
    rcases hor with h0 | hmem
    · rw [h0]
      obtain ⟨s0, ss, hs⟩ := List.exists_cons_of_ne_nil hne
      have hs0mem : s0 ∈ samples := by
        rw [hs]
        exact List.mem_cons_self s0 ss
      have h1 : s0 ≤ 0 := h0 ▸ hub s0 hs0mem
      have h2 : (0 : ℚ) ≤ s0 := hnn s0 hs0mem
      have hz : s0 = 0 := le_antisymm h1 h2
      rw [← hz]
      exact hs0mem
    · exact hmem
  · obtain ⟨t, ht⟩ := foldl_captureSample_suffix samples ⟨[], 0⟩
    refine ⟨t, ?_⟩
    simpa [runMonitor] using ht

/-- Witness for the amended C9 at the two samples 5 and 3: the reported
maximum is one of the samples. -/
theorem C9_stats_amended_witness :
    ([5, 3] : List ℚ) ≠ [] ∧ (∀ x ∈ ([5, 3] : List ℚ), 0 ≤ x)
    ∧ (getStats (runMonitor [5, 3])).max ∈ ([5, 3] : List ℚ) :=
  ⟨by decide, by decide, (C9_stats_amended [5, 3] (by decide) (by decide)).1.2⟩

/-- Witness for C6 at capacity 2 over a mixed valid/invalid input: the
flattened output equals the valid subsequence. -/
theorem C6_flatten_eq_valid_filter_witness :
    (batcherOutput 2 true
        [⟨.jsNull, true, []⟩, ⟨.jsNull, false, ["e"]⟩, ⟨.jsNull, true, []⟩]).flatten
      = ([⟨.jsNull, true, []⟩, ⟨.jsNull, false, ["e"]⟩,
          ⟨.jsNull, true, []⟩] : List ValidatedRecord).filter (fun r => r.valid) :=
  (C6_flatten_eq_valid_filter 2
      [⟨.jsNull, true, []⟩, ⟨.jsNull, false, ["e"]⟩, ⟨.jsNull, true, []⟩]).1
